import Mathlib

/-!
# Shallow embedding of `geomesh/utils.py`

This file embeds the mesh-repair utilities of the repository (the module
`geomesh/utils.py`) as executable Lean definitions over exact rational
arithmetic, and proves/refutes the frozen claims about them.

Conventions of the embedding:
* a `jigsaw_msh_t` mesh is the record `Msh` below: `vert2` is the ordered
  vertex array (coordinate pair and integer ID tag), `value` the optional
  scalar field (empty list when absent), `tria3`/`quad4`/`hexa8` the element
  arrays (index tuples plus integer ID tag);
* numpy float arithmetic is modelled by `ℚ`;
* calls into external geometry libraries are modelled from their documented
  semantics: `shapely` polygon area is the absolute shoelace area of the
  exterior minus the hole areas, `matplotlib` `Path.contains_point` is
  even-odd ray casting, `matplotlib` `Triangulation.neighbors` marks a
  triangle edge as boundary when no other triangle contains both endpoints,
  and `Triangulation.edges` is the lexicographically sorted list of distinct
  undirected edges;
* a Python exception is modelled by `Except.error` carrying the message;
* the unbounded `while` loops of the source are given an explicit fuel that
  provably dominates their iteration count (each iteration consumes at least
  one element of a shrinking list).
-/

namespace Geomesh

/-- A mesh vertex: 2-D coordinate and integer ID tag (`VERT2_t`). -/
abbrev Vert2 := (ℚ × ℚ) × Int

/-- A triangle: vertex-index triple and integer ID tag (`TRIA3_t`). -/
abbrev Tria3 := (ℕ × ℕ × ℕ) × Int

/-- A quadrilateral element (`QUAD4_t`). -/
abbrev Quad4 := (ℕ × ℕ × ℕ × ℕ) × Int

/-- A hexahedral element (`HEXA8_t`), kept only because
`vertices_around_vertex` and `put_IDtags` visit it; its 8-index row is
encoded as two 4-tuples. -/
abbrev Hexa8 := ((ℕ × ℕ × ℕ × ℕ) × (ℕ × ℕ × ℕ × ℕ)) × Int

/-- The `jigsaw_msh_t` mesh record as used by `geomesh/utils.py`:
vertex array, optional scalar-value array, and element arrays. -/
structure Msh where
  vert2 : List Vert2
  value : List ℚ
  tria3 : List Tria3
  quad4 : List Quad4
  hexa8 : List Hexa8
deriving DecidableEq, Repr

instance {ε α : Type} [DecidableEq ε] [DecidableEq α] : DecidableEq (Except ε α) :=
  fun a b =>
    match a, b with
    | .error e, .error f => decidable_of_iff (e = f) (by simp)
    | .error _, .ok _ => isFalse (fun h => Except.noConfusion h)
    | .ok _, .error _ => isFalse (fun h => Except.noConfusion h)
    | .ok x, .ok y => decidable_of_iff (x = y) (by simp)

/-- Stable insertion of `a` into `l` before the first element `b` with
`le a b`. -/
def insertSorted (le : α → α → Bool) (a : α) : List α → List α
  | [] => [a]
  | b :: t => if le a b then a :: b :: t else b :: insertSorted le a t

/-- Stable insertion sort by the boolean relation `le`; used to model the
deterministic orders of `np.argsort`, of `matplotlib` edge tables, and of
iteration over Python sets of small integers. -/
def insertionSort (le : α → α → Bool) : List α → List α
  | [] => []
  | a :: t => insertSorted le a (insertionSort le t)

/-- The three vertex indices of a triangle's index triple as a list. -/
def triVerts (t : ℕ × ℕ × ℕ) : List ℕ := [t.1, t.2.1, t.2.2]

/-- The vertex-index list of a quad. -/
def quadVerts (t : ℕ × ℕ × ℕ × ℕ) : List ℕ := [t.1, t.2.1, t.2.2.1, t.2.2.2]

/-- The vertex-index list of a hexahedron. -/
def hexaVerts (t : (ℕ × ℕ × ℕ × ℕ) × (ℕ × ℕ × ℕ × ℕ)) : List ℕ :=
  quadVerts t.1 ++ quadVerts t.2

/-- Coordinate of vertex `i` (`mesh.vert2['coord'][i]`); out-of-range access
is padded with the origin, and is never exercised by the theorems (the
well-formedness hypotheses keep all indices in range). -/
def vcoord (verts : List Vert2) (i : ℕ) : ℚ × ℚ :=
  (verts.getD i ((0, 0), 0)).1

/-- In `permutations(simplex, 2)` (from `vertices_around_vertex` and
`limgrad`), the partners recorded for vertex `i` within one simplex: the
values at all positions other than an occurrence of `i`.  If `i` occurs at
two or more positions every position qualifies as a partner (including `i`
itself); if it occurs once, all other positions; otherwise none. -/
def partners (s : List ℕ) (i : ℕ) : Finset ℕ :=
  if 2 ≤ s.count i then s.toFinset
  else if 1 ≤ s.count i then (s.erase i).toFinset
  else ∅

/-- The list version of `partners`, for the neighbor table of `limgrad`. -/
def partnersList (s : List ℕ) (i : ℕ) : List ℕ :=
  if 2 ≤ s.count i then s
  else if 1 ≤ s.count i then s.erase i
  else []

/-- All simplices of the mesh as vertex lists, in the order
`vertices_around_vertex` visits them: `tria3`, then `quad4`, then `hexa8`. -/
def simplexLists (m : Msh) : List (List ℕ) :=
  m.tria3.map (fun t => triVerts t.1) ++ m.quad4.map (fun t => quadVerts t.1)
    ++ m.hexa8.map (fun t => hexaVerts t.1)

/-- Embedding of `vertices_around_vertex(mesh)[i]`: the set of vertices sharing a simplex
with `i`. -/
def vertexNeighbors (m : Msh) (i : ℕ) : Finset ℕ :=
  (simplexLists m).foldl (fun acc s => acc ∪ partners s i) ∅

/-- The keys present in the `vertices_around_vertex` defaultdict: every
vertex occurring in some simplex. -/
def simplexVerts (m : Msh) : Finset ℕ :=
  (simplexLists m).foldl (fun acc s => acc ∪ s.toFinset) ∅

/-- The set of vertex indices referenced by the triangle array
(`np.unique(mesh.tria3['index'])`). -/
def uniqueTriaVerts (m : Msh) : Finset ℕ :=
  m.tria3.foldl (fun acc t => acc ∪ (triVerts t.1).toFinset) ∅

/-- The in-place renumbering loop shared by `cleanup_isolates` and `sieve`:
for each removed index, from the largest to the smallest, decrement every
triangle index that is `>=` it.  `removedAsc` is the ascending list of
removed vertex indices (`tria3_idxs`); `foldr` processes it largest-first,
exactly like `for idx in reversed(tria3_idxs)`. -/
def renumLoop (removedAsc : List ℕ) (v : ℕ) : ℕ :=
  removedAsc.foldr (fun idx w => if idx ≤ w then w - 1 else w) v

/-- Closed form of `renumLoop`: compaction of a vertex index over the set of
removed indices, `v - #\x7bremoved i | i ≤ v\x7d` (stated with the kept set
`used`). -/
def compactIdx (used : Finset ℕ) (v : ℕ) : ℕ :=
  v - (List.range (v + 1)).countP (fun i => decide (i ∉ used))

/-! ## Boundary edges (`mesh_to_tri` + the `tri.neighbors == -1` scan) -/

/-- The three directed edges of a triangle, in local winding order
`(t[j], t[(j+1) % 3])` for `j = 0, 1, 2`. -/
def triEdges3 (t : ℕ × ℕ × ℕ) : List (ℕ × ℕ) :=
  [(t.1, t.2.1), (t.2.1, t.2.2), (t.2.2, t.1)]

/-- Whether the directed edge `e` of triangle number `i` is a boundary edge:
no *other* triangle of the triangulation contains both endpoints
(this is `tri.neighbors[i, j] == -1` of `matplotlib.tri.Triangulation`). -/
def isBoundaryEdge (ts : List (ℕ × ℕ × ℕ)) (i : ℕ) (e : ℕ × ℕ) : Bool :=
  !((List.range ts.length).any (fun k =>
    decide (k ≠ i) &&
    decide (e.1 ∈ triVerts (ts.getD k (0, 0, 0))) &&
    decide (e.2 ∈ triVerts (ts.getD k (0, 0, 0)))))

/-- The directed boundary edges of the mesh, emitted in the row-major order
of `np.where(tri.neighbors == -1)`: triangles in order, local edges `0,1,2`
within each triangle (`index_ring_collection`, first loop). -/
def boundaryEdges (m : Msh) : List (ℕ × ℕ) :=
  let ts := m.tria3.map (·.1)
  ((List.range ts.length).map (fun i =>
    (triEdges3 (ts.getD i (0, 0, 0))).filter (isBoundaryEdge ts i))).flatten

/-! ## `sort_edges`: chaining directed edges into rings -/

/-- One pass of the `while len(edges) > 0` loop of `sort_edges`, with fuel:
every iteration pops exactly one edge, so `edges.length` fuel suffices.
`chain` is `ordered_edges`, `coll` is `edge_collection`. -/
def sortEdgesLoop : ℕ → List (ℕ × ℕ) → List (ℕ × ℕ) → List (List (ℕ × ℕ)) →
    List (List (ℕ × ℕ))
  | 0, _, chain, coll => coll ++ [chain]
  | fuel + 1, edges, chain, coll =>
    if edges.isEmpty then coll ++ [chain]
    else
      let tailV := ((chain.getLast?).getD (0, 0)).2
      let headV := ((chain.head?).getD (0, 0)).1
      match (edges.map (·.1)).findIdx? (· = tailV) with
      | some idx =>
          sortEdgesLoop fuel (edges.eraseIdx idx)
            (chain ++ [edges.getD idx (0, 0)]) coll
      | none =>
        match (edges.map (·.2)).findIdx? (· = headV) with
        | some idx =>
            sortEdgesLoop fuel (edges.eraseIdx idx)
              ([edges.getD idx (0, 0)] ++ chain) coll
        | none =>
          match (edges.map (·.2)).findIdx? (· = tailV) with
          | some idx =>
              sortEdgesLoop fuel (edges.eraseIdx idx)
                (chain ++ [((edges.getD idx (0, 0)).2, (edges.getD idx (0, 0)).1)]) coll
          | none =>
            match (edges.map (·.1)).findIdx? (· = headV) with
            | some idx =>
                sortEdgesLoop fuel (edges.eraseIdx idx)
                  ([((edges.getD idx (0, 0)).2, (edges.getD idx (0, 0)).1)] ++ chain) coll
            | none =>
                sortEdgesLoop fuel edges.dropLast
                  [(edges.getLast?).getD (0, 0)] (coll ++ [chain])

/-- Embedding of `sort_edges(edges)`: chain directed boundary edges into closed rings.
An empty edge list is returned unchanged (so: no rings); otherwise the
current chain starts from the last edge (`edges.pop(-1)`) and the loop runs
until all edges are consumed, after which the final chain is recorded. -/
def sortEdges (edges : List (ℕ × ℕ)) : List (List (ℕ × ℕ)) :=
  match edges with
  | [] => []
  | _ =>
      sortEdgesLoop edges.length edges.dropLast [(edges.getLast?).getD (0, 0)] []

/-! ## Geometry models: shoelace area and even-odd point-in-polygon -/

/-- Shoelace sum over a vertex list, with cyclic wrap-around. -/
def shoelace (pts : List (ℚ × ℚ)) : ℚ :=
  (List.range pts.length).foldl (fun a i =>
    let p := pts.getD i (0, 0)
    let q := pts.getD ((i + 1) % pts.length) (0, 0)
    a + (p.1 * q.2 - q.1 * p.2)) 0

/-- Model of `shapely.geometry.Polygon(pts).area`: the absolute shoelace
area of the (implicitly closed) vertex list. -/
def polyAreaAbs (pts : List (ℚ × ℚ)) : ℚ := |shoelace pts| / 2

/-- Model of `matplotlib.path.Path(coords, closed=True).contains_point(p)`:
even-odd ray casting along the horizontal ray to the right of `p`, over the
consecutive segments of the explicitly closed coordinate list. -/
def containsPoint (coords : List (ℚ × ℚ)) (p : ℚ × ℚ) : Bool :=
  (coords.zip (coords.drop 1)).foldl (fun c ab =>
    let a := ab.1
    let b := ab.2
    let straddles := (a.2 ≤ p.2 ∧ p.2 < b.2) ∨ (b.2 ≤ p.2 ∧ p.2 < a.2)
    let xcross := a.1 + (p.2 - a.2) * (b.1 - a.1) / (b.2 - a.2)
    if straddles ∧ p.1 < xcross then !c else c) false

/-! ## `index_ring_collection`: classifying rings into polygon regions -/

/-- A polygon region of `index_ring_collection`: one exterior ring and its
direct-child interior (hole) rings, each ring a list of directed edges. -/
structure Region where
  exterior : List (ℕ × ℕ)
  interiors : List (List (ℕ × ℕ))
deriving DecidableEq, Repr

/-- The rings a region carries, exterior first. -/
def regionRings (r : Region) : List (List (ℕ × ℕ)) := r.exterior :: r.interiors

/-- Model of `np.max` over a list of rationals (total; the callers guard emptiness,
matching the `ValueError` numpy raises on an empty sequence). -/
def listMax (l : List ℚ) : ℚ := l.foldl max ((l.head?).getD 0)

/-- Model of `np.min` over a list of rationals (total; callers guard emptiness). -/
def listMin (l : List ℚ) : ℚ := l.foldl min ((l.head?).getD 0)

/-- Embedding of `areas.index(np.max(areas))`: first position of the maximum. -/
def argmaxFirst (l : List ℚ) : ℕ := l.findIdx (fun a => decide (a = listMax l))

/-- Area of a ring's vertex polygon, `Polygon(vertices[e0, :]).area`:
absolute shoelace area over the first-endpoint coordinates of its edges. -/
def ringArea (verts : List Vert2) (ring : List (ℕ × ℕ)) : ℚ :=
  polyAreaAbs ((ring.map (·.1)).map (vcoord verts))

/-- The explicitly closed coordinate list `vertices[e0 + [e0[0]], :]` used
to build a `Path` from a ring. -/
def closedRingCoords (verts : List Vert2) (ring : List (ℕ × ℕ)) : List (ℚ × ℚ) :=
  let e0 := ring.map (·.1)
  (e0 ++ [e0.getD 0 0]).map (vcoord verts)

/-- Coordinate of the first vertex of a ring (`vertices[e0[0], :]`). -/
def firstCoord (verts : List Vert2) (ring : List (ℕ × ℕ)) : ℚ × ℚ :=
  vcoord verts ((ring.getD 0 (0, 0)).1)

/-- The candidate-interior positions of the current pool: ring `i` is a
potential interior when its first vertex lies inside the closed path of the
current exterior. -/
def ircPotential (verts : List Vert2) (pool : List (List (ℕ × ℕ) × ℚ))
    (cur : Region) : List ℕ :=
  (List.range pool.length).filter (fun i =>
    containsPoint (closedRingCoords verts cur.exterior)
      (firstCoord verts (pool.getD i ([], 0)).1))

/-- The direct-child positions: candidates not contained in any other
candidate, visited — and later popped — in descending position order
(`reversed(sorted(real_interiors))`). -/
def ircReal (verts : List Vert2) (pool : List (List (ℕ × ℕ) × ℚ))
    (cur : Region) : List ℕ :=
  ((ircPotential verts pool cur).filter (fun p =>
    !((ircPotential verts pool cur).any (fun q =>
      decide (q ≠ p) &&
      containsPoint (closedRingCoords verts (pool.getD q ([], 0)).1)
        (firstCoord verts (pool.getD p ([], 0)).1))))).reverse

/-- One body of the classification loop up to the re-selection of an
exterior: append the direct-child rings to the current region's interiors
and pop them from the pool (pops read descending positions, so each read
from the original pool is the element popped). -/
def ircStep (verts : List Vert2) (pool : List (List (ℕ × ℕ) × ℚ))
    (cur : Region) : Region × List (List (ℕ × ℕ) × ℚ) :=
  (⟨cur.exterior, cur.interiors ++
      (ircReal verts pool cur).map (fun i => (pool.getD i ([], 0)).1)⟩,
    (ircReal verts pool cur).foldl (fun pl i => pl.eraseIdx i) pool)

/-- The `while len(index_ring_collection) > 0` loop of
`index_ring_collection`.  `pool` carries each remaining ring paired with its
precomputed area (mirroring the parallel `index_ring_collection`/`areas`
lists, which the source pops in lockstep); `cur` is the region currently
collecting interiors; `acc` the completed regions in dictionary order.
Every iteration pops at least one ring, so `pool.length` fuel suffices. -/
def ircLoop (verts : List Vert2) :
    ℕ → List (List (ℕ × ℕ) × ℚ) → Region → List Region → Except String (List Region)
  | 0, pool, cur, acc =>
      if pool.isEmpty then .ok (acc ++ [cur])
      else .error "ring classification ran out of fuel"
  | fuel + 1, pool, cur, acc =>
    if pool.isEmpty then .ok (acc ++ [cur])
    else
      if (ircStep verts pool cur).2.isEmpty then .ok (acc ++ [(ircStep verts pool cur).1])
      else
        ircLoop verts fuel
          ((ircStep verts pool cur).2.eraseIdx
            (argmaxFirst ((ircStep verts pool cur).2.map (·.2))))
          ⟨((ircStep verts pool cur).2.getD
            (argmaxFirst ((ircStep verts pool cur).2.map (·.2))) ([], 0)).1, []⟩
          (acc ++ [(ircStep verts pool cur).1])

/-- Embedding of `index_ring_collection(mesh)`: extract boundary rings, then classify
them into polygon regions.  With zero rings, `np.max` over the empty
`areas` list raises `ValueError` (modelled as `Except.error`); otherwise
the maximum-area ring opens region `0` and the loop runs until the ring
pool is empty. -/
def indexRingCollection (m : Msh) : Except String (List Region) :=
  let rings := sortEdges (boundaryEdges m)
  if rings.isEmpty then .error "max() arg is an empty sequence"
  else
    let verts := m.vert2
    let pr := rings.map (fun r => (r, ringArea verts r))
    let idx := argmaxFirst (pr.map (·.2))
    ircLoop verts rings.length (pr.eraseIdx idx) ⟨(pr.getD idx ([], 0)).1, []⟩ []

/-- Model of `Polygon(exterior, interiors).area` for a region of
`geom_to_multipolygon`: exterior area minus the hole areas. -/
def regionArea (verts : List Vert2) (r : Region) : ℚ :=
  ringArea verts r.exterior - (r.interiors.map (ringArea verts)).sum

/-! ## `sieve`, `needs_sieve`, `cleanup_isolates`, `put_IDtags` -/

/-- The region-removal index list shared verbatim by `needs_sieve` and
`sieve`: with no threshold, `np.where(areas < np.max(areas))[0]`; with a
threshold, every index whose area is `<=` it. -/
def sieveRemoveIdxs (areas : List ℚ) (area : Option ℚ) : List ℕ :=
  match area with
  | none => (List.range areas.length).filter (fun i =>
      decide (areas.getD i 0 < listMax areas))
  | some a => (List.range areas.length).filter (fun i =>
      decide (areas.getD i 0 ≤ a))

/-- Embedding of `needs_sieve(mesh, area)`: true iff the removal list is non-empty. -/
def needsSieve (m : Msh) (area : Option ℚ) : Except String Bool := do
  let regions ← indexRingCollection m
  pure (!(sieveRemoveIdxs (regions.map (regionArea m.vert2)) area).isEmpty)

/-- Stage one of the `sieve` vertex mask (`vert2_mask` after the
`path.contains_points` loop): vertex `i` is marked iff it lies inside the
closed exterior path of some region selected for removal. -/
def sieveMask0 (m : Msh) (regions : List Region) (area : Option ℚ) (i : ℕ) : Bool :=
  (sieveRemoveIdxs (regions.map (regionArea m.vert2)) area).any (fun r =>
    containsPoint (closedRingCoords m.vert2 (regions.getD r ⟨[], []⟩).exterior)
      (vcoord m.vert2 i))

/-- Stage two: marks are propagated one step to the topological neighbors of
every vertex marked by stage one (the `_idxs` snapshot loop). -/
def sieveMask1 (m : Msh) (regions : List Region) (area : Option ℚ) (i : ℕ) : Bool :=
  sieveMask0 m regions area i ||
    (List.range m.vert2.length).any (fun j =>
      sieveMask0 m regions area j && decide (i ∈ vertexNeighbors m j))

/-- Stage three, the final mask: additionally mark every vertex present in
the adjacency table whose neighbor set has at most two elements (the
dangling-triangle loop over `_node_neighbors.items()`). -/
def sieveMask (m : Msh) (regions : List Region) (area : Option ℚ) (i : ℕ) : Bool :=
  sieveMask1 m regions area i ||
    (decide (i ∈ simplexVerts m) && decide ((vertexNeighbors m i).card ≤ 2))

/-- The pure tail of `sieve` once the regions are known: drop the triangles
touching a masked vertex, drop the vertices unreferenced by the *original*
triangle table, and renumber the surviving triangle indices over those
removals. -/
def sieveApply (m : Msh) (regions : List Region) (area : Option ℚ) : Msh :=
  let mask := sieveMask m regions area
  let n := m.vert2.length
  let used := uniqueTriaVerts m
  let removedAsc := (List.range n).filter (fun i => decide (i ∉ used))
  let keptAsc := (List.range n).filter (fun i => decide (i ∈ used))
  let survivors := m.tria3.filter (fun t =>
    !(mask t.1.1 || mask t.1.2.1 || mask t.1.2.2))
  { vert2 := keptAsc.map (fun i => m.vert2.getD i ((0, 0), 0)),
    value := if m.value.isEmpty then m.value
             else keptAsc.map (fun i => m.value.getD i 0),
    tria3 := survivors.map (fun t =>
      ((renumLoop removedAsc t.1.1, renumLoop removedAsc t.1.2.1,
        renumLoop removedAsc t.1.2.2), t.2)),
    quad4 := m.quad4,
    hexa8 := m.hexa8 }

/-- Embedding of `sieve(mesh, area)`: remove the subdomains selected by
`sieveRemoveIdxs`, then compact and renumber as `sieveApply` does. -/
def sieve (m : Msh) (area : Option ℚ) : Except String Msh := do
  let regions ← indexRingCollection m
  pure (sieveApply m regions area)

/-- Embedding of `cleanup_isolates(mesh)`: remove the vertices unreferenced by the
triangle table, renumber all triangle indices over those removals, keep
every triangle. -/
def cleanupIsolates (m : Msh) : Msh :=
  let n := m.vert2.length
  let used := uniqueTriaVerts m
  let removedAsc := (List.range n).filter (fun i => decide (i ∉ used))
  let keptAsc := (List.range n).filter (fun i => decide (i ∈ used))
  { vert2 := keptAsc.map (fun i => m.vert2.getD i ((0, 0), 0)),
    value := if m.value.isEmpty then m.value
             else keptAsc.map (fun i => m.value.getD i 0),
    tria3 := m.tria3.map (fun t =>
      ((renumLoop removedAsc t.1.1, renumLoop removedAsc t.1.2.1,
        renumLoop removedAsc t.1.2.2), t.2)),
    quad4 := m.quad4,
    hexa8 := m.hexa8 }

/-- Embedding of `put_IDtags(mesh)`: re-tag vertices and elements with 1-based
sequential IDs, leaving coordinates, indices and values alone. -/
def putIDtags (m : Msh) : Msh :=
  { vert2 := m.vert2.enum.map (fun p => (p.2.1, (p.1 : Int) + 1)),
    value := m.value,
    tria3 := m.tria3.enum.map (fun p => (p.2.1, (p.1 : Int) + 1)),
    quad4 := m.quad4.enum.map (fun p => (p.2.1, (p.1 : Int) + 1)),
    hexa8 := m.hexa8.enum.map (fun p => (p.2.1, (p.1 : Int) + 1)) }

/-! ## Pinched nodes -/

/-- The list `all_nodes` of `has_pinched_nodes`/`cleanup_pinched_nodes`: the first
endpoints of every interior (hole) ring edge, over all regions. -/
def allInnerNodes (regions : List Region) : List ℕ :=
  (regions.map (fun r => (r.interiors.map (fun ring => ring.map (·.1))).flatten)).flatten

/-- The pinched set `u[c > 1]`: the vertex indices occurring more than once in the
concatenated hole-ring vertex lists. -/
def pinchedOf (nodes : List ℕ) : List ℕ :=
  nodes.dedup.filter (fun v => decide (1 < nodes.count v))

/-- Embedding of `has_pinched_nodes(mesh)`: whether some vertex occurs in more than one
hole-ring occurrence. -/
def hasPinchedNodes (m : Msh) : Except String Bool := do
  let regions ← indexRingCollection m
  pure (!(pinchedOf (allInnerNodes regions)).isEmpty)

/-- Embedding of `cleanup_pinched_nodes(mesh)`: keep exactly the triangles none of whose
vertices is multiply referenced by the hole rings. -/
def cleanupPinchedNodes (m : Msh) : Except String Msh := do
  let regions ← indexRingCollection m
  let pin := pinchedOf (allInnerNodes regions)
  pure { m with tria3 := m.tria3.filter (fun t =>
    !(pin.any (fun v => decide (v = t.1.1) || decide (v = t.1.2.1) || decide (v = t.1.2.2)))) }

/-! ## `finalize_mesh` -/

/-- The loop condition of `finalize_mesh`:
`needs_sieve(mesh) or has_pinched_nodes(mesh)` — note the source calls
`needs_sieve` *without* the caller's `sieve_area`, so the default
(keep only the maximum-area region) criterion is what is tested, with
Python's short-circuiting `or`. -/
def finalizeCond (m : Msh) : Except String Bool := do
  let s ← needsSieve m none
  if s then pure true else hasPinchedNodes m

/-- The `while` loop of `finalize_mesh`, with fuel (the source imposes no
iteration cap; running out of fuel is modelled as an error, and every claim
about the loop is conditional on normal termination). -/
def finalizeLoop (a : Option ℚ) : ℕ → Msh → Except String Msh
  | 0, m => do
    let c ← finalizeCond m
    if c then .error "finalize loop ran out of fuel" else pure (putIDtags m)
  | fuel + 1, m => do
    let c ← finalizeCond m
    if c then do
      let m1 ← cleanupPinchedNodes m
      let m2 ← sieve m1 a
      finalizeLoop a fuel m2
    else pure (putIDtags m)

/-- Embedding of `finalize_mesh(mesh, sieve_area)`: remove isolates, run the repair loop,
then assign ID tags (the post-loop `cleanup_isolates` call is commented out
in the source). -/
def finalizeMesh (fuel : ℕ) (m : Msh) (a : Option ℚ) : Except String Msh :=
  finalizeLoop a fuel (cleanupIsolates m)

/-! ## `limgrad` -/

/-- Largest `k ≤ bound` with `k * k ≤ n` (structural search, so the kernel
can evaluate it). -/
def natSqrtAux (n : ℕ) : ℕ → ℕ
  | 0 => 0
  | k + 1 => if (k + 1) * (k + 1) ≤ n then k + 1 else natSqrtAux n k

/-- Integer square root, `⌊√n⌋`. -/
def natSqrt (n : ℕ) : ℕ := natSqrtAux n n

/-- Rational square root: exact on ratios of perfect squares, which every
edge length appearing in the concrete meshes of this file is; models
`np.sqrt` there. -/
def qsqrt (q : ℚ) : ℚ := (natSqrt q.num.toNat : ℚ) / (natSqrt q.den : ℚ)

/-- The exact value of `np.sqrt(np.finfo(float).eps)`: the machine epsilon
of `float64` is `2 ^ (-52)`, whose square root is exactly `2 ^ (-26)`. -/
def sqrtEpsQ : ℚ := 1 / 2 ^ 26

/-- Model of `matplotlib.tri.Triangulation.edges`: the distinct undirected
edges of the triangulation, each as an ordered pair `(min, max)`, sorted
lexicographically. -/
def triUEdges (m : Msh) : List (ℕ × ℕ) :=
  insertionSort (fun a b => decide (a.1 < b.1 ∨ (a.1 = b.1 ∧ a.2 ≤ b.2)))
    ((m.tria3.map (fun t => triEdges3 t.1)).flatten.map
      (fun e => (min e.1 e.2, max e.1 e.2))).dedup

/-- Length of the undirected edge `e`:
`np.sqrt(dx ** 2 + dy ** 2)` on the endpoint coordinates. -/
def edgeLenQ (verts : List Vert2) (e : ℕ × ℕ) : ℚ :=
  let p := vcoord verts e.1
  let q := vcoord verts e.2
  qsqrt ((p.1 - q.1) ^ 2 + (p.2 - q.2) ^ 2)

/-- The convergence tolerance `ftol = np.min(ffun) * np.sqrt(eps)`. -/
def lgFtol (m : Msh) : ℚ := listMin m.value * sqrtEpsQ

/-- The table `point_neighbors[i]` of `limgrad`, iterated in ascending order (the
source iterates a Python set of small ints): built from the triangle table
only. -/
def lgNeighbors (m : Msh) (i : ℕ) : List ℕ :=
  insertionSort (fun a b => decide (a ≤ b))
    ((m.tria3.map (fun t => partnersList (triVerts t.1) i)).flatten.dedup)

/-- The mutable state of the `limgrad` relaxation: the field values `ffun`
and the per-vertex activation counters `aset`. -/
structure LGState where
  ffun : List ℚ
  aset : List ℕ
deriving DecidableEq, Repr

/-- The active set `aidx = np.where(aset == k - 1)[0]`: the active vertex positions at the
start of iteration `k`, ascending. -/
def activeSet (aset : List ℕ) (k : ℕ) : List ℕ :=
  (List.range aset.length).filter (fun i => decide (aset.getD i 0 = k - 1))

/-- Model of `np.argsort(xs)`: the positions `0 .. xs.length - 1` sorted by value
(stable, modelling a deterministic choice among ties). -/
def argsortQ (xs : List ℚ) : List ℕ :=
  insertionSort (fun i j => decide (xs.getD i 0 ≤ xs.getD j 0)) (List.range xs.length)

/-- The body of one `limgrad` iteration `k`.  Note two faithful oddities of
the source: the result of `np.argsort(ffun[aidx])` — a list of *positions
into `aidx`* — is used directly as vertex indices, and the edge length is
read as `elen[active_idx]`, i.e. indexed by that number rather than by the
edge being examined. -/
def lgStep (m : Msh) (elen : List ℚ) (dfdx ftol : ℚ) (k : ℕ) (st : LGState) :
    LGState :=
  let aidx := activeSet st.aset k
  let activeIdxs := argsortQ (aidx.map (fun i => st.ffun.getD i 0))
  activeIdxs.foldl (fun st1 act =>
    (lgNeighbors m act).foldl (fun st2 adj =>
      if st2.ffun.getD act 0 < st2.ffun.getD adj 0 then
        let fun1 := st2.ffun.getD act 0 + elen.getD act 0 * dfdx
        if fun1 + ftol < st2.ffun.getD adj 0 then
          ⟨st2.ffun.set adj fun1, st2.aset.set adj k⟩
        else st2
      else
        let fun2 := st2.ffun.getD adj 0 + elen.getD act 0 * dfdx
        if fun2 + ftol < st2.ffun.getD act 0 then
          ⟨st2.ffun.set act fun2, st2.aset.set act k⟩
        else st2) st1) st

/-- The `for _iter in range(1, imax + 1)` loop of `limgrad`: `cnt` is the
number of iterations left, `k` the current iteration number.  Returns the
final value of `_iter` together with the final state: `(k, st)` on the
early `break` (empty active set at the start of iteration `k`), and
`imax` when all iterations run. -/
def lgIter (m : Msh) (elen : List ℚ) (dfdx ftol : ℚ) :
    ℕ → ℕ → LGState → ℕ × LGState
  | 0, k, st => (k - 1, st)
  | cnt + 1, k, st =>
    if (activeSet st.aset k).isEmpty then (k, st)
    else lgIter m elen dfdx ftol cnt (k + 1) (lgStep m elen dfdx ftol k st)

/-- The `limgrad` computation up to (but not including) the final
convergence check: edge lengths, tolerance, initial counters, iteration. -/
def limgradCore (m : Msh) (dfdx : ℚ) (imax : ℕ) : ℕ × LGState :=
  let elen := (triUEdges m).map (edgeLenQ m.vert2)
  lgIter m elen dfdx (lgFtol m) imax 1 ⟨m.value, List.replicate m.value.length 0⟩

/-- Embedding of `limgrad(mesh, dfdx, imax)`: runs the relaxation and then raises unless
`_iter < imax`.  An empty field makes `np.min` raise, and `imax = 0` leaves
`_iter` unbound (`NameError`); both are modelled as errors. -/
def limgrad (m : Msh) (dfdx : ℚ) (imax : ℕ) : Except String (List ℚ) :=
  if m.value.isEmpty then
    .error "zero-size array to reduction operation minimum which has no identity"
  else if imax = 0 then .error "name _iter is not defined"
  else
    let r := limgradCore m dfdx imax
    if r.1 < imax then .ok r.2.ffun
    else .error ("limgrad() did not converge within " ++ toString imax ++ " iterations.")

/-! ## Concrete meshes used by the witnesses and counterexamples -/

/-- A single-triangle mesh with a scalar field: vertices `(0,0)`, `(1,0)`,
`(0,1)`, one triangle `(0,1,2)`. -/
def triMsh : Msh :=
  ⟨[((0, 0), 0), ((1, 0), 0), ((0, 1), 0)], [1, 2, 3], [((0, 1, 2), 0)], [], []⟩

/-- The unique boundary ring of `triMsh` as the source chains it. -/
def triRing : List (ℕ × ℕ) := [(2, 0), (0, 1), (1, 2)]

/-- The region list `index_ring_collection` produces for `triMsh`. -/
def triRegions : List Region := [⟨triRing, []⟩]

/-- A right triangle with integer edge lengths 6, 8, 10 and field
`[0, 5, 5]`: under slope 1 no check fires, so the first iteration changes
nothing and the active set is empty from iteration 2 on. -/
def triBMsh : Msh :=
  ⟨[((0, 0), 0), ((6, 0), 0), ((0, 8), 0)], [0, 5, 5], [((0, 1, 2), 0)], [], []⟩

/-- A two-triangle quadrilateral with integer edge lengths
(7, 24, 25, 24, 7) and field `[0, 0, 7, 17]`: every check of `limgrad`
passes because the source reads `elen[active_idx]`, yet the short edge
`(2, 3)` of length 7 carries a field jump of 10. -/
def quadMsh : Msh :=
  ⟨[((0, 7), 0), ((0, 0), 0), ((24, 7), 0), ((24, 0), 0)], [0, 0, 7, 17],
   [((0, 1, 2), 0), ((1, 3, 2), 0)], [], []⟩

/-- Two triangles over the same three vertices with opposite winding: every
edge is shared by both triangles, so the triangulation has zero boundary
edges (a closed manifold in the sense of the boundary scan). -/
def closedMsh : Msh :=
  ⟨[((0, 0), 0), ((1, 0), 0), ((0, 1), 0)], [], [((0, 1, 2), 0), ((0, 2, 1), 0)], [], []⟩

/-- The mesh `sieve` produces from `triMsh` with no threshold: all three
vertices got masked by the degree rule, so every triangle is gone, yet the
vertex and value arrays survive untouched. -/
def triSieved : Msh :=
  ⟨[((0, 0), 0), ((1, 0), 0), ((0, 1), 0)], [1, 2, 3], [], [], []⟩

/-- The mesh `finalize_mesh` produces from `triMsh`: geometry unchanged,
1-based sequential ID tags. -/
def triFinal : Msh :=
  ⟨[((0, 0), 1), ((1, 0), 2), ((0, 1), 3)], [1, 2, 3], [((0, 1, 2), 1)], [], []⟩

/-- The field `limgrad(quadMsh, 1, 100)` returns. -/
def quadOut : List ℚ := [0, 0, 7, 17]

end Geomesh

namespace Geomesh

attribute [local semireducible] Rat.add Rat.sub Rat.mul Rat.inv

set_option maxRecDepth 8000

/-! ## Helper lemmas about the renumbering loop -/

theorem countP_le_of_gt_lower (rest : List ℕ) (a v : ℕ)
    (hrest : rest.Pairwise (· < ·)) (hall : ∀ x ∈ rest, a < x) :
    rest.countP (fun i => decide (i ≤ v)) ≤ v - a := by
  rw [List.countP_eq_length_filter]
  have hnd : (rest.filter (fun i => decide (i ≤ v))).Nodup :=
    (hrest.filter _).imp (fun h => Nat.ne_of_lt h)
  have hsub : (rest.filter (fun i => decide (i ≤ v))).toFinset ⊆ Finset.Ioc a v := by
    intro x hx
    rw [List.mem_toFinset, List.mem_filter] at hx
    exact Finset.mem_Ioc.mpr ⟨hall x hx.1, by simpa using hx.2⟩
  calc (rest.filter (fun i => decide (i ≤ v))).length
      = (rest.filter (fun i => decide (i ≤ v))).toFinset.card :=
        (List.toFinset_card_of_nodup hnd).symm
    _ ≤ (Finset.Ioc a v).card := Finset.card_le_card hsub
    _ = v - a := Nat.card_Ioc a v

theorem renumLoop_closed (l : List ℕ) (hl : l.Pairwise (· < ·)) (v : ℕ) :
    renumLoop l v = v - l.countP (fun i => decide (i ≤ v)) := by
  induction l with
  | nil => simp [renumLoop]
  | cons a rest ih =>
    obtain ⟨hall, hrest⟩ := List.pairwise_cons.mp hl
    have hstep : renumLoop (a :: rest) v =
        (if a ≤ renumLoop rest v then renumLoop rest v - 1 else renumLoop rest v) := rfl
    rw [hstep, ih hrest]
    by_cases ha : a ≤ v
    · have hc := countP_le_of_gt_lower rest a v hrest hall
      rw [List.countP_cons_of_pos _ _ (by simpa using ha)]
      rw [if_pos (by omega)]
      omega
    · have hc : rest.countP (fun i => decide (i ≤ v)) = 0 :=
        List.countP_eq_zero.mpr (fun x hx => by
          have := hall x hx
          simp only [decide_eq_true_eq]
          omega)
      rw [List.countP_cons_of_neg _ _ (by simpa using ha), hc]
      rw [if_neg (by omega)]

theorem countP_range_below (p : ℕ → Bool) (v n : ℕ) (h : v < n) :
    (List.range n).countP (fun i => p i && decide (i ≤ v)) =
      (List.range (v + 1)).countP p := by
  have hn : n = (v + 1) + (n - (v + 1)) := by omega
  rw [hn, List.range_add, List.countP_append]
  have h1 : (List.range (v + 1)).countP (fun i => p i && decide (i ≤ v)) =
      (List.range (v + 1)).countP p := by
    apply List.countP_congr
    intro i hi
    have hiv : i ≤ v := Nat.lt_succ_iff.mp (List.mem_range.mp hi)
    simp [hiv]
  have h2 : ((List.range (n - (v + 1))).map (fun x => v + 1 + x)).countP
      (fun i => p i && decide (i ≤ v)) = 0 := by
    rw [List.countP_map]
    apply List.countP_eq_zero.mpr
    intro x _
    have : ¬ (v + 1 + x ≤ v) := by omega
    simp [Function.comp, this]
  rw [h1, h2, Nat.add_zero]

theorem renumLoop_filter_range (n : ℕ) (q : ℕ → Bool) (v : ℕ) (h : v < n) :
    renumLoop ((List.range n).filter q) v = v - (List.range (v + 1)).countP q := by
  rw [renumLoop_closed _ ((List.pairwise_lt_range n).filter q)]
  rw [List.countP_filter]
  rw [show (fun a => decide (a ≤ v) && q a) = (fun a => q a && decide (a ≤ v)) from
    funext (fun a => Bool.and_comm _ _)]
  rw [countP_range_below q v n h]

theorem renumLoop_eq_compactIdx (n : ℕ) (used : Finset ℕ) (v : ℕ) (h : v < n) :
    renumLoop ((List.range n).filter (fun i => decide (i ∉ used))) v =
      compactIdx used v :=
  renumLoop_filter_range n _ v h

theorem countP_in_out (used : Finset ℕ) (l : List ℕ) :
    l.countP (fun i => decide (i ∈ used)) + l.countP (fun i => decide (i ∉ used)) =
      l.length := by
  induction l with
  | nil => rfl
  | cons a t ih =>
    by_cases ha : a ∈ used
    · rw [List.countP_cons_of_pos _ _ (by simpa using ha),
        List.countP_cons_of_neg _ _ (by simpa using ha)]
      simp only [List.length_cons]
      omega
    · rw [List.countP_cons_of_neg _ _ (by simpa using ha),
        List.countP_cons_of_pos _ _ (by simpa using ha)]
      simp only [List.length_cons]
      omega

theorem countP_range_mono (p : ℕ → Bool) {a b : ℕ} (h : a ≤ b) :
    (List.range a).countP p ≤ (List.range b).countP p := by
  have hb : b = a + (b - a) := by omega
  rw [hb, List.range_add, List.countP_append]
  omega

theorem compactIdx_lt_kept (used : Finset ℕ) {v n : ℕ} (hv : v < n) (hu : v ∈ used) :
    compactIdx used v < (List.range n).countP (fun i => decide (i ∈ used)) := by
  have hsplit := countP_in_out used (List.range (v + 1))
  rw [List.length_range] at hsplit
  have hpos : 0 < (List.range (v + 1)).countP (fun i => decide (i ∈ used)) :=
    List.countP_pos_iff.mpr ⟨v, List.mem_range.mpr (Nat.lt_succ_self v), by simpa using hu⟩
  have hmono : (List.range (v + 1)).countP (fun i => decide (i ∈ used)) ≤
      (List.range n).countP (fun i => decide (i ∈ used)) :=
    countP_range_mono _ (by omega)
  rw [compactIdx]
  omega

theorem mem_foldl_union {β : Type} (f : β → Finset ℕ) (l : List β) (acc : Finset ℕ)
    (x : ℕ) :
    x ∈ l.foldl (fun a b => a ∪ f b) acc ↔ x ∈ acc ∨ ∃ b ∈ l, x ∈ f b := by
  induction l generalizing acc with
  | nil => simp
  | cons c t ih =>
    rw [List.foldl_cons, ih]
    simp [Finset.mem_union, or_assoc]

theorem mem_uniqueTriaVerts (m : Msh) (t : Tria3) (ht : t ∈ m.tria3) :
    t.1.1 ∈ uniqueTriaVerts m ∧ t.1.2.1 ∈ uniqueTriaVerts m ∧
      t.1.2.2 ∈ uniqueTriaVerts m := by
  refine ⟨?_, ?_, ?_⟩ <;>
  · rw [uniqueTriaVerts, mem_foldl_union]
    exact Or.inr ⟨t, ht, by simp [triVerts]⟩

/-! ## Reduction lemmas for the `Except`-valued operations -/

theorem sieve_ok (m : Msh) (area : Option ℚ) (regions : List Region)
    (h : indexRingCollection m = .ok regions) :
    sieve m area = .ok (sieveApply m regions area) := by
  unfold sieve
  rw [h]
  rfl

theorem needsSieve_ok (m : Msh) (area : Option ℚ) (regions : List Region)
    (h : indexRingCollection m = .ok regions) :
    needsSieve m area =
      .ok (!(sieveRemoveIdxs (regions.map (regionArea m.vert2)) area).isEmpty) := by
  unfold needsSieve
  rw [h]
  rfl

theorem hasPinchedNodes_ok (m : Msh) (regions : List Region)
    (h : indexRingCollection m = .ok regions) :
    hasPinchedNodes m = .ok (!(pinchedOf (allInnerNodes regions)).isEmpty) := by
  unfold hasPinchedNodes
  rw [h]
  rfl

theorem cleanupPinchedNodes_ok (m : Msh) (regions : List Region)
    (h : indexRingCollection m = .ok regions) :
    cleanupPinchedNodes m = .ok { m with tria3 := m.tria3.filter (fun t =>
      !((pinchedOf (allInnerNodes regions)).any (fun v =>
        decide (v = t.1.1) || decide (v = t.1.2.1) || decide (v = t.1.2.2)))) } := by
  unfold cleanupPinchedNodes
  rw [h]
  rfl

/-! ## Claim C2: the gradient bound of `limgrad` -/

/-- C2, code bug: the claim states the gradient bound
`|value[a] - value[b]| <= dfdx * edge_length(a, b) + tolerance` for every
edge of a mesh `limgrad` returns normally on.  The code violates it: it
reads `elen[active_idx]` — the length of the `active_idx`-th *edge* of the
edge table, although `active_idx` ranges over vertex positions — so a check
along an edge is made against an unrelated length.  On `quadMsh`
(field `[0, 0, 7, 17]`, slope 1) every check passes and `limgrad` returns
the field unchanged, yet edge `(2, 3)` has length 7 and carries a field
difference of 10, exceeding `1 * 7 + ftol` with `ftol = 0`. -/
theorem C2_gradient_violation :
    limgrad quadMsh 1 100 = .ok quadOut ∧
    (2, 3) ∈ triUEdges quadMsh ∧
    edgeLenQ quadMsh.vert2 (2, 3) = 7 ∧
    lgFtol quadMsh = 0 ∧
    ¬ (|quadOut.getD 2 0 - quadOut.getD 3 0| ≤
        1 * edgeLenQ quadMsh.vert2 (2, 3) + lgFtol quadMsh) := by
  refine ⟨by decide, by decide, by decide, by decide, ?_⟩
  intro hle
  rw [show |quadOut.getD 2 0 - quadOut.getD 3 0| = 10 from by decide] at hle
  rw [show edgeLenQ quadMsh.vert2 (2, 3) = 7 from by decide] at hle
  rw [show lgFtol quadMsh = 0 from by decide] at hle
  norm_num at hle

/-! ## Claim C4: which regions `sieve` marks for removal -/

/-- C4, counterexample: the claim says that with the threshold unset,
exactly one Polygon Region remains after `sieve`, the pre-sieve
maximum-area region.  On the single-triangle mesh `triMsh` (one region, so
nothing is selected for removal) the dangling-vertex rule masks all three
vertices — each has exactly two neighbors — and every triangle is removed:
afterwards there are no boundary edges, no rings, and ring extraction
errors out, so *zero* regions remain. -/
theorem C4_counterexample :
    sieve triMsh none = .ok triSieved ∧
    triSieved.tria3 = [] ∧
    boundaryEdges triSieved = [] ∧
    sortEdges (boundaryEdges triSieved) = [] ∧
    indexRingCollection triSieved = .error "max() arg is an empty sequence" := by
  refine ⟨by decide, by decide, by decide, by decide, by decide⟩

/-- C4, amended: the region-removal *selection* of `sieve` (and
`needs_sieve`) is exactly as the claim's sources describe — with an explicit
threshold `T` a region is selected iff its area is `≤ T`; with the
threshold unset iff its area is strictly below the maximum — but the claim's
conclusion about the regions *remaining after* `sieve` fails, because the
vertex-degree rule can also destroy retained regions (see the
counterexample). -/
theorem C4_remove_set (areas : List ℚ) (T : ℚ) (i : ℕ) :
    (i ∈ sieveRemoveIdxs areas (some T) ↔ i < areas.length ∧ areas.getD i 0 ≤ T) ∧
    (i ∈ sieveRemoveIdxs areas none ↔
      i < areas.length ∧ areas.getD i 0 < listMax areas) := by
  constructor
  · rw [sieveRemoveIdxs, List.mem_filter, List.mem_range]
    simp
  · rw [sieveRemoveIdxs, List.mem_filter, List.mem_range]
    simp

/-! ## Claim C5: the convergence / non-convergence behavior of `limgrad` -/

theorem lgIter_fst_le (m : Msh) (elen : List ℚ) (dfdx ftol : ℚ) :
    ∀ (cnt k : ℕ) (st : LGState),
      (lgIter m elen dfdx ftol cnt k st).1 ≤ k + cnt - 1
  | 0, k, st => by simp [lgIter]
  | cnt + 1, k, st => by
    rw [lgIter]
    by_cases h : (activeSet st.aset k).isEmpty
    · rw [if_pos h]
      omega
    · rw [if_neg h]
      have := lgIter_fst_le m elen dfdx ftol cnt (k + 1)
        (lgStep m elen dfdx ftol k st)
      omega

theorem lgIter_break (m : Msh) (elen : List ℚ) (dfdx ftol : ℚ) :
    ∀ (cnt k : ℕ) (st : LGState),
      (lgIter m elen dfdx ftol cnt k st).1 + 1 < k + cnt →
      activeSet (lgIter m elen dfdx ftol cnt k st).2.aset
        (lgIter m elen dfdx ftol cnt k st).1 = []
  | 0, k, st => by
    intro h
    simp only [lgIter] at h
    omega
  | cnt + 1, k, st => by
    intro h
    rw [lgIter] at h ⊢
    by_cases he : (activeSet st.aset k).isEmpty
    · rw [if_pos he] at h ⊢
      exact List.isEmpty_iff.mp he
    · rw [if_neg he] at h ⊢
      exact lgIter_break m elen dfdx ftol cnt (k + 1)
        (lgStep m elen dfdx ftol k st) (by omega)

/-- C5, counterexample: the claim says that whenever the active set is
empty at the start of some iteration `k ≤ imax`, `limgrad` returns the
field without error.  On `triBMsh` (slopes all within bound, so iteration 1
changes nothing) with `imax = 2` the active set is empty at the start of
iteration `2 = imax`, but the final guard `if not _iter < imax` still
raises the non-convergence exception. -/
theorem C5_counterexample :
    limgradCore triBMsh 1 2 = (2, ⟨[0, 5, 5], [0, 0, 0]⟩) ∧
    activeSet [0, 0, 0] 2 = [] ∧
    limgrad triBMsh 1 2 =
      .error "limgrad() did not converge within 2 iterations." := by
  refine ⟨by decide, by decide, by decide⟩

/-- C5, amended: `limgrad` returns the adjusted field without error iff the
iteration counter where the loop stops is strictly below `imax`, i.e. iff
the active set becomes empty at the start of some iteration `k < imax`
(`k ≤ imax - 1`, not `k ≤ imax` as claimed); in every other case —
including the convergent case where the active set first empties exactly at
iteration `imax` — it raises the exception reporting the iteration cap. -/
theorem C5_limgrad_convergence (m : Msh) (dfdx : ℚ) (imax : ℕ)
    (h0 : ¬ m.value.isEmpty) (h1 : 1 ≤ imax) :
    ((limgradCore m dfdx imax).1 ≤ imax) ∧
    (limgrad m dfdx imax = .ok (limgradCore m dfdx imax).2.ffun ↔
      (limgradCore m dfdx imax).1 < imax) ∧
    ((limgradCore m dfdx imax).1 < imax →
      activeSet (limgradCore m dfdx imax).2.aset (limgradCore m dfdx imax).1 = []) ∧
    (¬ (limgradCore m dfdx imax).1 < imax →
      limgrad m dfdx imax =
        .error ("limgrad() did not converge within " ++ toString imax ++
          " iterations.")) := by
  have hle : (limgradCore m dfdx imax).1 ≤ imax := by
    have := lgIter_fst_le m ((triUEdges m).map (edgeLenQ m.vert2)) dfdx (lgFtol m)
      imax 1 ⟨m.value, List.replicate m.value.length 0⟩
    rw [limgradCore]
    omega
  have hbrk : (limgradCore m dfdx imax).1 < imax →
      activeSet (limgradCore m dfdx imax).2.aset (limgradCore m dfdx imax).1 = [] := by
    intro hlt
    rw [limgradCore] at hlt ⊢
    exact lgIter_break m ((triUEdges m).map (edgeLenQ m.vert2)) dfdx (lgFtol m)
      imax 1 ⟨m.value, List.replicate m.value.length 0⟩ (by omega)
  have hgrad : limgrad m dfdx imax =
      (if (limgradCore m dfdx imax).1 < imax then .ok (limgradCore m dfdx imax).2.ffun
       else .error ("limgrad() did not converge within " ++ toString imax ++
        " iterations.")) := by
    rw [limgrad, if_neg (by simpa using h0), if_neg (by omega)]
  refine ⟨hle, ?_, hbrk, ?_⟩
  · constructor
    · intro hok
      by_contra hlt
      rw [hgrad, if_neg hlt] at hok
      exact Except.noConfusion hok
    · intro hlt
      rw [hgrad, if_pos hlt]
  · intro hlt
    rw [hgrad, if_neg hlt]

/-- C5, witness: the amended statement applied to `quadMsh` with slope 1
and `imax = 100`. -/
theorem C5_witness :
    (¬ quadMsh.value.isEmpty) ∧ (1 ≤ 100) ∧
    (((limgradCore quadMsh 1 100).1 ≤ 100) ∧
    (limgrad quadMsh 1 100 = .ok (limgradCore quadMsh 1 100).2.ffun ↔
      (limgradCore quadMsh 1 100).1 < 100) ∧
    ((limgradCore quadMsh 1 100).1 < 100 →
      activeSet (limgradCore quadMsh 1 100).2.aset (limgradCore quadMsh 1 100).1 = []) ∧
    (¬ (limgradCore quadMsh 1 100).1 < 100 →
      limgrad quadMsh 1 100 =
        .error ("limgrad() did not converge within " ++ toString 100 ++
          " iterations."))) :=
  ⟨by decide, by decide, C5_limgrad_convergence quadMsh 1 100 (by decide) (by decide)⟩

/-! ## Claim C6: zero boundary edges -/

/-- C6, counterexample: the claim says a mesh with zero boundary edges
yields zero rings *returned as an empty result rather than raising an
error*.  `sort_edges` does return the empty list, but
`index_ring_collection` then evaluates `np.max` over the empty `areas`
list, which raises `ValueError` — modelled here as `Except.error`. -/
theorem C6_counterexample :
    boundaryEdges closedMsh = [] ∧
    sortEdges (boundaryEdges closedMsh) = [] ∧
    indexRingCollection closedMsh = .error "max() arg is an empty sequence" := by
  refine ⟨by decide, by decide, by decide⟩

/-- C6, amended: for every mesh whose triangulation has zero boundary
edges, `sort_edges` yields zero rings as an empty list, but
`index_ring_collection` raises (`np.max` of the empty area sequence)
instead of returning an empty collection. -/
theorem C6_zero_boundary (m : Msh) (h : boundaryEdges m = []) :
    sortEdges (boundaryEdges m) = [] ∧
    indexRingCollection m = .error "max() arg is an empty sequence" := by
  constructor
  · rw [h]
    rfl
  · rw [indexRingCollection, h]
    rfl

/-- C6, witness: the amended statement applied to `closedMsh`, whose two
triangles share all three edges. -/
theorem C6_witness :
    boundaryEdges closedMsh = [] ∧
    (sortEdges (boundaryEdges closedMsh) = [] ∧
      indexRingCollection closedMsh = .error "max() arg is an empty sequence") :=
  ⟨by decide, C6_zero_boundary closedMsh (by decide)⟩

/-! ## Reduction lemmas for `finalize_mesh` -/

theorem sieve_err (m : Msh) (area : Option ℚ) (e : String)
    (h : indexRingCollection m = .error e) : sieve m area = .error e := by
  unfold sieve
  rw [h]
  rfl

theorem cleanupPinchedNodes_err (m : Msh) (e : String)
    (h : indexRingCollection m = .error e) : cleanupPinchedNodes m = .error e := by
  unfold cleanupPinchedNodes
  rw [h]
  rfl

theorem finalizeCond_of_needsSieve_true (m : Msh)
    (h : needsSieve m none = .ok true) : finalizeCond m = .ok true := by
  unfold finalizeCond
  rw [h]
  rfl

theorem finalizeCond_of_needsSieve_false (m : Msh)
    (h : needsSieve m none = .ok false) : finalizeCond m = hasPinchedNodes m := by
  unfold finalizeCond
  rw [h]
  rfl

theorem finalizeLoop_err (a : Option ℚ) (fuel : ℕ) (m : Msh) (e : String)
    (h : finalizeCond m = .error e) : finalizeLoop a fuel m = .error e := by
  cases fuel with
  | zero => rw [finalizeLoop, h]; rfl
  | succ n => rw [finalizeLoop, h]; rfl

theorem finalizeLoop_of_cond_false (a : Option ℚ) (fuel : ℕ) (m : Msh)
    (h : finalizeCond m = .ok false) :
    finalizeLoop a fuel m = .ok (putIDtags m) := by
  cases fuel with
  | zero => rw [finalizeLoop, h]; rfl
  | succ n => rw [finalizeLoop, h]; rfl

theorem finalizeLoop_zero_of_cond_true (a : Option ℚ) (m : Msh)
    (h : finalizeCond m = .ok true) :
    finalizeLoop a 0 m = .error "finalize loop ran out of fuel" := by
  rw [finalizeLoop, h]
  rfl

theorem except_bind_ok {ε α β : Type} (a : α) (f : α → Except ε β) :
    (Except.ok (ε := ε) a >>= f) = f a := rfl

theorem finalizeLoop_step (a : Option ℚ) (fuel : ℕ) (m m1 m2 : Msh)
    (hc : finalizeCond m = .ok true)
    (hp : cleanupPinchedNodes m = .ok m1)
    (hs : sieve m1 a = .ok m2) :
    finalizeLoop a (fuel + 1) m = finalizeLoop a fuel m2 := by
  rw [finalizeLoop, hc, except_bind_ok, if_pos rfl, hp, except_bind_ok, hs,
    except_bind_ok]

theorem finalizeLoop_step_perr (a : Option ℚ) (fuel : ℕ) (m : Msh) (e : String)
    (hc : finalizeCond m = .ok true)
    (hp : cleanupPinchedNodes m = .error e) :
    finalizeLoop a (fuel + 1) m = .error e := by
  rw [finalizeLoop, hc, except_bind_ok, if_pos rfl, hp]
  rfl

theorem finalizeLoop_step_serr (a : Option ℚ) (fuel : ℕ) (m m1 : Msh) (e : String)
    (hc : finalizeCond m = .ok true)
    (hp : cleanupPinchedNodes m = .ok m1)
    (hs : sieve m1 a = .error e) :
    finalizeLoop a (fuel + 1) m = .error e := by
  rw [finalizeLoop, hc, except_bind_ok, if_pos rfl, hp, except_bind_ok, hs]
  rfl

/-! ## ID tags -/

theorem map_fst_fun_zip_range {α : Type} (l : List α) (g : ℕ → Int) :
    ((List.range l.length).zip l).map (fun p => g p.1) =
      (List.range l.length).map g := by
  have h1 : (fun p : ℕ × α => g p.1) = g ∘ Prod.fst := rfl
  rw [h1, ← List.map_map]
  rw [List.map_fst_zip _ _ (by rw [List.length_range])]

theorem enum_tags {α : Type} (l : List α) :
    (l.enum.map (fun p => ((p.1 : Int) + 1))) =
      (List.range l.length).map (fun i : ℕ => (i : Int) + 1) := by
  rw [List.enum_eq_zip_range]
  exact map_fst_fun_zip_range l (fun i : ℕ => (i : Int) + 1)

theorem putIDtags_vert2_tags (m : Msh) :
    (putIDtags m).vert2.map (·.2) =
      (List.range m.vert2.length).map (fun i : ℕ => (i : Int) + 1) := by
  show (m.vert2.enum.map (fun p => (p.2.1, (p.1 : Int) + 1))).map (·.2) = _
  rw [List.map_map]
  exact enum_tags m.vert2

theorem putIDtags_tria3_tags (m : Msh) :
    (putIDtags m).tria3.map (·.2) =
      (List.range m.tria3.length).map (fun i : ℕ => (i : Int) + 1) := by
  show (m.tria3.enum.map (fun p => (p.2.1, (p.1 : Int) + 1))).map (·.2) = _
  rw [List.map_map]
  exact enum_tags m.tria3

/-! ## Claim C3: the repair loop of `finalize_mesh` -/

/-- C3, counterexample: the claim says the repair loop re-enters exactly
when `needs_sieve` *evaluated against the caller's threshold* (or the pinch
check) is true.  With threshold `10`, the single region of `triMsh` has
area `1/2 ≤ 10`, so `needs_sieve(mesh, 10)` is true — but the source calls
`needs_sieve(mesh)` with the default threshold, which is false here, so the
loop body never runs: `finalize_mesh` succeeds even with zero loop fuel and
returns the mesh unsieved (the triangle survives, only ID tags change). -/
theorem C3_counterexample :
    finalizeMesh 0 triMsh (some 10) = .ok triFinal ∧
    needsSieve (cleanupIsolates triMsh) (some 10) = .ok true ∧
    needsSieve (cleanupIsolates triMsh) none = .ok false ∧
    hasPinchedNodes (cleanupIsolates triMsh) = .ok false ∧
    triFinal.tria3.length = 1 := by
  refine ⟨by decide, by decide, by decide, by decide, by decide⟩

/-- C3, amended: `finalize_mesh` first removes isolates, then its repair
loop re-enters exactly when `needs_sieve` evaluated with the *default*
(unset) threshold — not the caller's — or, failing that, `has_pinched_nodes`
is true; each pass runs `cleanup_pinched_nodes` and then `sieve` with the
caller's threshold; when the condition is false it assigns dense sequential
1-based ID tags to vertices and elements and terminates. -/
theorem C3_finalize_loop (a : Option ℚ) (fuel : ℕ) (m m1 : Msh)
    (hfalse : finalizeCond m1 = .ok false) :
    finalizeMesh fuel m a = finalizeLoop a fuel (cleanupIsolates m) ∧
    finalizeLoop a fuel m1 = .ok (putIDtags m1) ∧
    (∀ m2, needsSieve m2 none = .ok true → finalizeCond m2 = .ok true) ∧
    (∀ m2, needsSieve m2 none = .ok false → finalizeCond m2 = hasPinchedNodes m2) ∧
    (∀ m2 m3 m4, finalizeCond m2 = .ok true → cleanupPinchedNodes m2 = .ok m3 →
      sieve m3 a = .ok m4 →
      finalizeLoop a (fuel + 1) m2 = finalizeLoop a fuel m4) ∧
    (putIDtags m1).vert2.map (·.2) =
      (List.range m1.vert2.length).map (fun i : ℕ => (i : Int) + 1) ∧
    (putIDtags m1).tria3.map (·.2) =
      (List.range m1.tria3.length).map (fun i : ℕ => (i : Int) + 1) :=
  ⟨rfl, finalizeLoop_of_cond_false a fuel m1 hfalse,
    fun m2 h2 => finalizeCond_of_needsSieve_true m2 h2,
    fun m2 h2 => finalizeCond_of_needsSieve_false m2 h2,
    fun m2 m3 m4 hc hp hs => finalizeLoop_step a fuel m2 m3 m4 hc hp hs,
    putIDtags_vert2_tags m1, putIDtags_tria3_tags m1⟩

/-- C3, witness: the amended statement applied to `triMsh` with caller
threshold `10` and zero fuel. -/
theorem C3_witness :
    finalizeCond triMsh = .ok false ∧
    (finalizeMesh 0 triMsh (some 10) = finalizeLoop (some 10) 0 (cleanupIsolates triMsh) ∧
    finalizeLoop (some 10) 0 triMsh = .ok (putIDtags triMsh) ∧
    (∀ m2, needsSieve m2 none = .ok true → finalizeCond m2 = .ok true) ∧
    (∀ m2, needsSieve m2 none = .ok false → finalizeCond m2 = hasPinchedNodes m2) ∧
    (∀ m2 m3 m4, finalizeCond m2 = .ok true → cleanupPinchedNodes m2 = .ok m3 →
      sieve m3 (some 10) = .ok m4 →
      finalizeLoop (some 10) (0 + 1) m2 = finalizeLoop (some 10) 0 m4) ∧
    (putIDtags triMsh).vert2.map (·.2) =
      (List.range triMsh.vert2.length).map (fun i : ℕ => (i : Int) + 1) ∧
    (putIDtags triMsh).tria3.map (·.2) =
      (List.range triMsh.tria3.length).map (fun i : ℕ => (i : Int) + 1)) :=
  ⟨by decide, C3_finalize_loop (some 10) 0 triMsh triMsh (by decide)⟩

/-! ## Claim C7: `cleanup_pinched_nodes` removes exactly the pinched triangles -/

theorem mem_pinchedOf (nodes : List ℕ) (v : ℕ) :
    v ∈ pinchedOf nodes ↔ 1 < nodes.count v := by
  rw [pinchedOf, List.mem_filter, List.mem_dedup]
  constructor
  · intro h
    simpa using h.2
  · intro h
    exact ⟨List.count_pos_iff.mp (by omega), by simpa using h⟩

/-- C7: for every mesh whose ring extraction succeeds,
`cleanup_pinched_nodes` keeps exactly the triangles none of whose three
vertices occurs more than once across all regions' hole-ring vertex lists
(the pinched nodes), in their original relative order (a `filter` of the
original triangle array). -/
theorem C7_cleanup_pinched (m : Msh) (regions : List Region)
    (h : indexRingCollection m = .ok regions) :
    cleanupPinchedNodes m = .ok { m with tria3 := m.tria3.filter (fun t =>
      !((triVerts t.1).any (fun v =>
        decide (1 < (allInnerNodes regions).count v)))) } := by
  rw [cleanupPinchedNodes_ok m regions h]
  have hf : m.tria3.filter (fun t =>
      !((pinchedOf (allInnerNodes regions)).any (fun v =>
        decide (v = t.1.1) || decide (v = t.1.2.1) || decide (v = t.1.2.2)))) =
      m.tria3.filter (fun t =>
      !((triVerts t.1).any (fun v =>
        decide (1 < (allInnerNodes regions).count v)))) := by
    apply List.filter_congr
    intro t _
    have hiff : ((pinchedOf (allInnerNodes regions)).any (fun v =>
        decide (v = t.1.1) || decide (v = t.1.2.1) || decide (v = t.1.2.2))) =
        ((triVerts t.1).any (fun v =>
          decide (1 < (allInnerNodes regions).count v))) := by
      rw [Bool.eq_iff_iff]
      simp only [List.any_eq_true, mem_pinchedOf, triVerts, List.mem_cons,
        List.not_mem_nil, or_false, Bool.or_eq_true, decide_eq_true_eq]
      constructor
      · rintro ⟨v, hv, (hv1 | hv2) | hv3⟩
        · exact ⟨t.1.1, Or.inl rfl, hv1 ▸ hv⟩
        · exact ⟨t.1.2.1, Or.inr (Or.inl rfl), hv2 ▸ hv⟩
        · exact ⟨t.1.2.2, Or.inr (Or.inr rfl), hv3 ▸ hv⟩
      · rintro ⟨v, hv1 | hv2 | hv3, hv⟩
        · exact ⟨v, hv, Or.inl (Or.inl hv1)⟩
        · exact ⟨v, hv, Or.inl (Or.inr hv2)⟩
        · exact ⟨v, hv, Or.inr hv3⟩
    rw [hiff]
  rw [hf]

/-- C7, witness: on `triMsh` (no holes, so no pinched nodes) the filter
keeps everything. -/
theorem C7_witness :
    indexRingCollection triMsh = .ok triRegions ∧
    cleanupPinchedNodes triMsh = .ok { triMsh with tria3 := triMsh.tria3.filter (fun t =>
      !((triVerts t.1).any (fun v =>
        decide (1 < (allInnerNodes triRegions).count v)))) } :=
  ⟨by decide, C7_cleanup_pinched triMsh triRegions (by decide)⟩

/-! ## Claim C10: the frame of `cleanup_pinched_nodes` -/

theorem cleanupPinched_shape (m m' : Msh) (h : cleanupPinchedNodes m = .ok m') :
    m'.vert2 = m.vert2 ∧ m'.value = m.value ∧ m'.quad4 = m.quad4 ∧
      m'.hexa8 = m.hexa8 ∧ m'.tria3.Sublist m.tria3 := by
  cases hirc : indexRingCollection m with
  | error e =>
    rw [cleanupPinchedNodes_err m e hirc] at h
    exact Except.noConfusion h
  | ok regions =>
    rw [cleanupPinchedNodes_ok m regions hirc] at h
    injection h with h'
    rw [← h']
    exact ⟨rfl, rfl, rfl, rfl, List.filter_sublist _⟩

/-- C10: whenever `cleanup_pinched_nodes` succeeds, only the triangle array
changed: the vertex array, the scalar values, and the `quad4`/`hexa8` tables
are untouched, and the surviving triangles are a sublist of the original
array — their vertex indices are not renumbered, so vertices that were
referenced only by removed triangles stay in the (unchanged) vertex
array as isolated vertices. -/
theorem C10_pinched_frame (m m' : Msh) (h : cleanupPinchedNodes m = .ok m') :
    m'.vert2 = m.vert2 ∧ m'.value = m.value ∧ m'.quad4 = m.quad4 ∧
      m'.hexa8 = m.hexa8 ∧ m'.tria3.Sublist m.tria3 ∧
      m'.vert2.length = m.vert2.length := by
  obtain ⟨h1, h2, h3, h4, h5⟩ := cleanupPinched_shape m m' h
  exact ⟨h1, h2, h3, h4, h5, by rw [h1]⟩

/-- C10, witness: the frame statement applied to `triMsh`. -/
theorem C10_witness :
    cleanupPinchedNodes triMsh = .ok triMsh ∧
    (triMsh.vert2 = triMsh.vert2 ∧ triMsh.value = triMsh.value ∧
      triMsh.quad4 = triMsh.quad4 ∧ triMsh.hexa8 = triMsh.hexa8 ∧
      triMsh.tria3.Sublist triMsh.tria3 ∧
      triMsh.vert2.length = triMsh.vert2.length) :=
  ⟨by decide, C10_pinched_frame triMsh triMsh (by decide)⟩

/-! ## Claim C9: the scalar-value array keeps the vertex array's length -/

theorem cleanupIsolates_inv (m : Msh) (h : m.value.length = m.vert2.length) :
    (cleanupIsolates m).value.length = (cleanupIsolates m).vert2.length := by
  by_cases hv : m.value.isEmpty
  · have h0 : m.value = [] := List.isEmpty_iff.mp hv
    have h1 : m.vert2 = [] := List.length_eq_zero.mp (by rw [← h, h0]; rfl)
    rw [cleanupIsolates]
    simp [hv, h0, h1]
  · rw [cleanupIsolates]
    simp [hv]

theorem sieveApply_inv (m : Msh) (regions : List Region) (area : Option ℚ)
    (h : m.value.length = m.vert2.length) :
    (sieveApply m regions area).value.length =
      (sieveApply m regions area).vert2.length := by
  by_cases hv : m.value.isEmpty
  · have h0 : m.value = [] := List.isEmpty_iff.mp hv
    have h1 : m.vert2 = [] := List.length_eq_zero.mp (by rw [← h, h0]; rfl)
    rw [sieveApply]
    simp [hv, h0, h1]
  · rw [sieveApply]
    simp [hv]

theorem sieve_inv (m : Msh) (area : Option ℚ) (m' : Msh)
    (h : m.value.length = m.vert2.length) (hs : sieve m area = .ok m') :
    m'.value.length = m'.vert2.length := by
  cases hirc : indexRingCollection m with
  | error e =>
    rw [sieve_err m area e hirc] at hs
    exact Except.noConfusion hs
  | ok regions =>
    rw [sieve_ok m area regions hirc] at hs
    injection hs with h'
    rw [← h']
    exact sieveApply_inv m regions area h

theorem putIDtags_inv (m : Msh) (h : m.value.length = m.vert2.length) :
    (putIDtags m).value.length = (putIDtags m).vert2.length := by
  rw [putIDtags]
  simpa using h

theorem finalizeLoop_inv (a : Option ℚ) :
    ∀ (fuel : ℕ) (m m' : Msh), m.value.length = m.vert2.length →
      finalizeLoop a fuel m = .ok m' → m'.value.length = m'.vert2.length
  | fuel, m, m', h, hl => by
    cases hc : finalizeCond m with
    | error e =>
      rw [finalizeLoop_err a fuel m e hc] at hl
      exact Except.noConfusion hl
    | ok b =>
      cases b with
      | false =>
        rw [finalizeLoop_of_cond_false a fuel m hc] at hl
        injection hl with h'
        rw [← h']
        exact putIDtags_inv m h
      | true =>
        cases fuel with
        | zero =>
          rw [finalizeLoop_zero_of_cond_true a m hc] at hl
          exact Except.noConfusion hl
        | succ n =>
          cases hp : cleanupPinchedNodes m with
          | error e =>
            rw [finalizeLoop_step_perr a n m e hc hp] at hl
            exact Except.noConfusion hl
          | ok m1 =>
            cases hs : sieve m1 a with
            | error e =>
              rw [finalizeLoop_step_serr a n m m1 e hc hp hs] at hl
              exact Except.noConfusion hl
            | ok m2 =>
              rw [finalizeLoop_step a n m m1 m2 hc hp hs] at hl
              have h1 : m1.value.length = m1.vert2.length := by
                obtain ⟨e1, e2, _⟩ := cleanupPinched_shape m m1 hp
                rw [e1, e2]
                exact h
              exact finalizeLoop_inv a n m2 m' (sieve_inv m1 a m2 h1 hs) hl

/-- C9: on a mesh carrying a non-empty scalar-value array of the same
length as the vertex array, each mutating operation — `cleanup_isolates`,
`sieve`, `cleanup_pinched_nodes`, and hence `finalize_mesh` — preserves the
invariant that the scalar-value array has the same length as the vertex
array. -/
theorem C9_value_length (m : Msh) (h0 : m.value ≠ [])
    (h : m.value.length = m.vert2.length) :
    ((cleanupIsolates m).value.length = (cleanupIsolates m).vert2.length) ∧
    (∀ area m', sieve m area = .ok m' → m'.value.length = m'.vert2.length) ∧
    (∀ m', cleanupPinchedNodes m = .ok m' → m'.value.length = m'.vert2.length) ∧
    (∀ fuel area m', finalizeMesh fuel m area = .ok m' →
      m'.value.length = m'.vert2.length) := by
  refine ⟨cleanupIsolates_inv m h, fun area m' hs => sieve_inv m area m' h hs,
    fun m' hp => ?_, fun fuel area m' hf => ?_⟩
  · obtain ⟨e1, e2, _⟩ := cleanupPinched_shape m m' hp
    rw [e1, e2]
    exact h
  · exact finalizeLoop_inv area fuel (cleanupIsolates m) m' (cleanupIsolates_inv m h) hf

/-! ## Claim C8: `index_ring_collection` partitions the rings -/

theorem getD_eraseIdx_lt {α : Type} :
    ∀ (l : List α) (i j : ℕ) (d : α), j < i →
      (l.eraseIdx i).getD j d = l.getD j d
  | [], _, _, _, _ => rfl
  | _ :: _, 0, j, _, h => absurd h (by omega)
  | _ :: _, i + 1, 0, _, _ => rfl
  | a :: l, i + 1, j + 1, d, h => getD_eraseIdx_lt l i j d (by omega)

theorem perm_getD_eraseIdx {α : Type} (l : List α) (i : ℕ) (h : i < l.length)
    (d : α) : l.Perm (l.getD i d :: l.eraseIdx i) := by
  conv_lhs => rw [← List.take_append_drop i l]
  rw [List.eraseIdx_eq_take_drop_succ]
  rw [List.drop_eq_getElem_cons h]
  rw [List.getD_eq_getElem l d h]
  exact List.perm_middle

/-- C8 helper: popping a descending list of valid positions from a pool —
reading each popped element from the original pool, as the source does —
splits the pool into the extracted elements and the remainder, up to
permutation. -/
theorem perm_extract_foldl {α : Type} (d : α) :
    ∀ (idxs : List ℕ) (l : List α), idxs.Pairwise (· > ·) →
      (∀ i ∈ idxs, i < l.length) →
      l.Perm (idxs.map (fun i => l.getD i d) ++
        idxs.foldl (fun pl i => pl.eraseIdx i) l)
  | [], l, _, _ => by simp
  | i :: rest, l, hp, hv => by
    obtain ⟨hgt, hrest⟩ := List.pairwise_cons.mp hp
    have hi : i < l.length := hv i (List.mem_cons_self i rest)
    have hrestv : ∀ j ∈ rest, j < (l.eraseIdx i).length := by
      intro j hj
      have := hgt j hj
      rw [List.length_eraseIdx, if_pos hi]
      omega
    have hmapeq : rest.map (fun j => (l.eraseIdx i).getD j d) =
        rest.map (fun j => l.getD j d) := by
      apply List.map_congr_left
      intro j hj
      exact getD_eraseIdx_lt l i j d (hgt j hj)
    have ih := perm_extract_foldl d rest (l.eraseIdx i) hrest hrestv
    have step1 : l.Perm (l.getD i d :: (rest.map (fun j => (l.eraseIdx i).getD j d) ++
        rest.foldl (fun pl k => pl.eraseIdx k) (l.eraseIdx i))) :=
      (perm_getD_eraseIdx l i hi d).trans (List.Perm.cons _ ih)
    have step2 : (i :: rest).map (fun j => l.getD j d) ++
        (i :: rest).foldl (fun pl k => pl.eraseIdx k) l =
        l.getD i d :: (rest.map (fun j => (l.eraseIdx i).getD j d) ++
          rest.foldl (fun pl k => pl.eraseIdx k) (l.eraseIdx i)) := by
      rw [List.map_cons, List.foldl_cons, hmapeq]
      rfl
    rw [step2]
    exact step1

theorem foldl_max_mem : ∀ (t : List ℚ) (a : ℚ), t.foldl max a ∈ a :: t
  | [], a => by simp
  | b :: t, a => by
    rw [List.foldl_cons]
    rcases List.mem_cons.mp (foldl_max_mem t (max a b)) with h | h
    · rw [h]
      rcases max_choice a b with h2 | h2 <;> rw [h2]
      · exact List.mem_cons_self a _
      · exact List.mem_cons_of_mem a (List.mem_cons_self b t)
    · exact List.mem_cons_of_mem a (List.mem_cons_of_mem b h)

theorem listMax_mem (l : List ℚ) (h : l ≠ []) : listMax l ∈ l := by
  cases l with
  | nil => exact absurd rfl h
  | cons a t =>
    show (a :: t).foldl max (((a :: t).head?).getD 0) ∈ a :: t
    rw [show (((a :: t).head?).getD 0) = a from rfl, List.foldl_cons, max_self]
    exact foldl_max_mem t a

theorem argmaxFirst_lt (l : List ℚ) (h : l ≠ []) : argmaxFirst l < l.length := by
  rw [argmaxFirst, List.findIdx_lt_length]
  exact ⟨listMax l, listMax_mem l h, by simp⟩

theorem ircReal_pairwise (verts : List Vert2) (pool : List (List (ℕ × ℕ) × ℚ))
    (cur : Region) : (ircReal verts pool cur).Pairwise (· > ·) := by
  rw [ircReal, List.pairwise_reverse]
  exact ((List.pairwise_lt_range pool.length).filter _).filter _

theorem ircReal_mem_lt (verts : List Vert2) (pool : List (List (ℕ × ℕ) × ℚ))
    (cur : Region) (i : ℕ) (h : i ∈ ircReal verts pool cur) : i < pool.length := by
  rw [ircReal, List.mem_reverse] at h
  exact List.mem_range.mp
    (List.mem_filter.mp (List.mem_filter.mp h).1).1

/-- C8 helper: one `ircStep` keeps the exterior, appends some ring list `ni`
to the interiors, and the popped rings together with the remaining pool are
a permutation of the incoming pool. -/
theorem ircStep_spec (verts : List Vert2) (pool : List (List (ℕ × ℕ) × ℚ))
    (cur : Region) :
    (ircStep verts pool cur).1 = ⟨cur.exterior, cur.interiors ++
      (ircReal verts pool cur).map (fun i => (pool.getD i ([], 0)).1)⟩ ∧
    (pool.map (·.1)).Perm
      ((ircReal verts pool cur).map (fun i => (pool.getD i ([], 0)).1) ++
        (ircStep verts pool cur).2.map (·.1)) := by
  constructor
  · rfl
  · have hperm := perm_extract_foldl ((([] : List (ℕ × ℕ)), (0 : ℚ)))
      (ircReal verts pool cur) pool (ircReal_pairwise verts pool cur)
      (fun i hi => ircReal_mem_lt verts pool cur i hi)
    have := hperm.map (·.1)
    rw [List.map_append, List.map_map] at this
    exact this

/-- C8 helper: the loop invariant — on success, the rings of the output
regions are a permutation of the accumulated rings, the current region's
rings, and the pool. -/
theorem ircLoop_perm (verts : List Vert2) :
    ∀ (fuel : ℕ) (pool : List (List (ℕ × ℕ) × ℚ)) (cur : Region)
      (acc : List Region) (out : List Region),
      ircLoop verts fuel pool cur acc = .ok out →
      (out.flatMap regionRings).Perm
        ((acc.flatMap regionRings) ++ regionRings cur ++ pool.map (·.1))
  | 0, pool, cur, acc, out => by
    intro h
    rw [ircLoop] at h
    by_cases hp : pool.isEmpty
    · rw [if_pos hp] at h
      injection h with h'
      subst h'
      rw [List.isEmpty_iff.mp hp]
      simp [List.flatMap_append]
    · rw [if_neg hp] at h
      exact Except.noConfusion h
  | fuel + 1, pool, cur, acc, out => by
    intro h
    rw [ircLoop] at h
    by_cases hp : pool.isEmpty
    · rw [if_pos hp] at h
      injection h with h'
      subst h'
      rw [List.isEmpty_iff.mp hp]
      simp [List.flatMap_append]
    · rw [if_neg hp] at h
      obtain ⟨hstep1, hstep2⟩ := ircStep_spec verts pool cur
      by_cases hp2 : (ircStep verts pool cur).2.isEmpty
      · rw [if_pos hp2] at h
        injection h with h'
        subst h'
        rw [List.isEmpty_iff.mp hp2] at hstep2
        rw [hstep1] at *
        rw [← Multiset.coe_eq_coe] at hstep2 ⊢
        simp only [List.flatMap_append, List.flatMap_cons, List.flatMap_nil,
          regionRings, List.append_nil, ← Multiset.coe_add,
          ← Multiset.cons_coe, ← Multiset.singleton_add, Multiset.coe_nil] at hstep2 ⊢
        rw [hstep2]
        abel
      · rw [if_neg hp2] at h
        have hlen : argmaxFirst ((ircStep verts pool cur).2.map (·.2)) <
            (ircStep verts pool cur).2.length := by
          have hne : (ircStep verts pool cur).2.map (·.2) ≠ [] := by
            intro hc
            have hc2 := congrArg List.length hc
            rw [List.length_map] at hc2
            exact hp2 (List.isEmpty_iff.mpr (List.length_eq_zero.mp (by simpa using hc2)))
          have := argmaxFirst_lt _ hne
          rw [List.length_map] at this
          exact this
        have hB := (perm_getD_eraseIdx (ircStep verts pool cur).2
          (argmaxFirst ((ircStep verts pool cur).2.map (·.2))) hlen ([], 0)).map (·.1)
        have ih := ircLoop_perm verts fuel _ _ _ _ h
        rw [hstep1] at ih
        rw [← Multiset.coe_eq_coe] at hstep2 hB ih ⊢
        simp only [List.flatMap_append, List.flatMap_cons, List.flatMap_nil,
          List.map_cons, regionRings, List.append_nil, ← Multiset.coe_add,
          ← Multiset.cons_coe, ← Multiset.singleton_add, Multiset.coe_nil] at hstep2 hB ih ⊢
        rw [ih, hstep2, hB]
        abel

/-- C8: for every mesh on which `index_ring_collection` returns normally,
the multiset of rings carried by the output regions — each region's exterior
plus its interior list — is exactly the multiset of rings extracted by
`sort_edges`: every ring is used exactly once, no ring is the hole of two
regions, and the remaining-ring pool is exhausted. -/
theorem irc_partition_aux (verts : List Vert2) (rings : List (List (ℕ × ℕ)))
    (regions : List Region) (hne : rings ≠ [])
    (h : ircLoop verts rings.length
      ((rings.map (fun r => (r, ringArea verts r))).eraseIdx
        (argmaxFirst ((rings.map (fun r => (r, ringArea verts r))).map (·.2))))
      ⟨((rings.map (fun r => (r, ringArea verts r))).getD
        (argmaxFirst ((rings.map (fun r => (r, ringArea verts r))).map (·.2)))
        ([], 0)).1, []⟩ [] = .ok regions) :
    (regions.flatMap regionRings).Perm rings := by
  have hprne : (rings.map (fun r => (r, ringArea verts r))).map (·.2) ≠ [] := by
    intro hc
    have hc2 := congrArg List.length hc
    rw [List.length_map, List.length_map] at hc2
    exact hne (List.length_eq_zero.mp (by simpa using hc2))
  have hidx : argmaxFirst ((rings.map (fun r => (r, ringArea verts r))).map (·.2)) <
      (rings.map (fun r => (r, ringArea verts r))).length := by
    have := argmaxFirst_lt _ hprne
    rw [List.length_map] at this
    exact this
  have hperm := ircLoop_perm verts rings.length
    ((rings.map (fun r => (r, ringArea verts r))).eraseIdx
      (argmaxFirst ((rings.map (fun r => (r, ringArea verts r))).map (·.2))))
    ⟨((rings.map (fun r => (r, ringArea verts r))).getD
      (argmaxFirst ((rings.map (fun r => (r, ringArea verts r))).map (·.2)))
      ([], 0)).1, []⟩ [] regions h
  have hB := (perm_getD_eraseIdx (rings.map (fun r => (r, ringArea verts r)))
    (argmaxFirst ((rings.map (fun r => (r, ringArea verts r))).map (·.2)))
    hidx ([], 0)).map (·.1)
  have hid : (rings.map (fun r => (r, ringArea verts r))).map (·.1) = rings := by
    rw [List.map_map]
    exact List.map_id _
  rw [← Multiset.coe_eq_coe] at hperm hB ⊢
  rw [hid] at hB
  simp only [List.flatMap_append, List.flatMap_cons, List.flatMap_nil,
    List.map_cons, regionRings, List.append_nil, List.nil_append,
    ← Multiset.coe_add, ← Multiset.cons_coe, ← Multiset.singleton_add,
    Multiset.coe_nil] at hperm hB ⊢
  rw [hperm, hB]
  abel

theorem C8_ring_partition (m : Msh) (regions : List Region)
    (h : indexRingCollection m = .ok regions) :
    (regions.flatMap regionRings).Perm (sortEdges (boundaryEdges m)) := by
  rw [indexRingCollection] at h
  by_cases hr : (sortEdges (boundaryEdges m)).isEmpty
  · rw [if_pos hr] at h
    exact Except.noConfusion h
  · rw [if_neg hr] at h
    exact irc_partition_aux m.vert2 (sortEdges (boundaryEdges m)) regions
      (fun hc => hr (List.isEmpty_iff.mpr hc)) h

/-- C8, witness: the partition statement applied to `triMsh`, whose single
ring becomes the exterior of the single region. -/
theorem C8_witness :
    indexRingCollection triMsh = .ok triRegions ∧
    (triRegions.flatMap regionRings).Perm (sortEdges (boundaryEdges triMsh)) :=
  ⟨by decide, C8_ring_partition triMsh triRegions (by decide)⟩

/-! ## Claim C1: what `sieve` removes, and how it renumbers -/

/-- C1, counterexample: the claim says every vertex marked for removal is
removed from the vertex array together with its scalar value.  On `triMsh`
with no threshold nothing is selected by area, but the degree rule marks
all three vertices (each has exactly two neighbors); the triangle is
removed, yet the vertex array and the value array survive unchanged —
`sieve` only drops vertices that were *unreferenced by the original
triangle table*, never the marked ones. -/
theorem C1_counterexample :
    indexRingCollection triMsh = .ok triRegions ∧
    sieveMask triMsh triRegions none 0 = true ∧
    sieve triMsh none = .ok triSieved ∧
    triSieved.vert2 = triMsh.vert2 ∧
    triSieved.value = triMsh.value ∧
    triSieved.tria3 = [] := by
  refine ⟨by decide, by decide, by decide, by decide, by decide, by decide⟩

/-- C1, amended: for every mesh whose ring extraction succeeds (and whose
triangle indices are in range), `sieve` (i) removes exactly the triangles
referencing a masked vertex — masked meaning inside a removed region's
exterior, a one-step neighbor of such a vertex, or of vertex-degree at most
two — preserving the relative order of the survivors; (ii) removes from the
vertex array (and the scalar-value array) exactly the vertices that were
referenced by *no* triangle of the pre-sieve mesh, so masked vertices that
were referenced stay, as isolated vertices; (iii) renumbers every surviving
triangle index to the vertex index space compacted over those removals,
preserving relative order; and (iv) leaves no triangle referencing a
removed vertex: every output index is below the new vertex count. -/
theorem C1_sieve_spec (m : Msh) (area : Option ℚ) (regions : List Region) (m' : Msh)
    (hw : ∀ t ∈ m.tria3, t.1.1 < m.vert2.length ∧ t.1.2.1 < m.vert2.length ∧
      t.1.2.2 < m.vert2.length)
    (hirc : indexRingCollection m = .ok regions)
    (hs : sieve m area = .ok m') :
    m'.tria3 = (m.tria3.filter (fun t => !(sieveMask m regions area t.1.1 ||
        sieveMask m regions area t.1.2.1 || sieveMask m regions area t.1.2.2))).map
        (fun t => ((compactIdx (uniqueTriaVerts m) t.1.1,
          compactIdx (uniqueTriaVerts m) t.1.2.1,
          compactIdx (uniqueTriaVerts m) t.1.2.2), t.2)) ∧
    m'.vert2 = ((List.range m.vert2.length).filter
        (fun i => decide (i ∈ uniqueTriaVerts m))).map
        (fun i => m.vert2.getD i ((0, 0), 0)) ∧
    (¬ m.value.isEmpty → m'.value = ((List.range m.vert2.length).filter
        (fun i => decide (i ∈ uniqueTriaVerts m))).map (fun i => m.value.getD i 0)) ∧
    (∀ t' ∈ m'.tria3, t'.1.1 < m'.vert2.length ∧ t'.1.2.1 < m'.vert2.length ∧
      t'.1.2.2 < m'.vert2.length) := by
  have hok := sieve_ok m area regions hirc
  rw [hs] at hok
  injection hok with hm'
  subst hm'
  have htri : (sieveApply m regions area).tria3 =
      (m.tria3.filter (fun t => !(sieveMask m regions area t.1.1 ||
        sieveMask m regions area t.1.2.1 || sieveMask m regions area t.1.2.2))).map
        (fun t => ((renumLoop ((List.range m.vert2.length).filter
            (fun i => decide (i ∉ uniqueTriaVerts m))) t.1.1,
          renumLoop ((List.range m.vert2.length).filter
            (fun i => decide (i ∉ uniqueTriaVerts m))) t.1.2.1,
          renumLoop ((List.range m.vert2.length).filter
            (fun i => decide (i ∉ uniqueTriaVerts m))) t.1.2.2), t.2)) := rfl
  have hvert : (sieveApply m regions area).vert2 =
      ((List.range m.vert2.length).filter
        (fun i => decide (i ∈ uniqueTriaVerts m))).map
        (fun i => m.vert2.getD i ((0, 0), 0)) := rfl
  have hlen : (sieveApply m regions area).vert2.length =
      (List.range m.vert2.length).countP (fun i => decide (i ∈ uniqueTriaVerts m)) := by
    rw [hvert, List.length_map, ← List.countP_eq_length_filter]
  have hmap : (sieveApply m regions area).tria3 =
      (m.tria3.filter (fun t => !(sieveMask m regions area t.1.1 ||
        sieveMask m regions area t.1.2.1 || sieveMask m regions area t.1.2.2))).map
        (fun t => ((compactIdx (uniqueTriaVerts m) t.1.1,
          compactIdx (uniqueTriaVerts m) t.1.2.1,
          compactIdx (uniqueTriaVerts m) t.1.2.2), t.2)) := by
    rw [htri]
    apply List.map_congr_left
    intro t ht
    obtain ⟨h1, h2, h3⟩ := hw t (List.mem_filter.mp ht).1
    rw [renumLoop_eq_compactIdx m.vert2.length (uniqueTriaVerts m) t.1.1 h1,
      renumLoop_eq_compactIdx m.vert2.length (uniqueTriaVerts m) t.1.2.1 h2,
      renumLoop_eq_compactIdx m.vert2.length (uniqueTriaVerts m) t.1.2.2 h3]
  refine ⟨hmap, hvert, fun hval => ?_, fun t' ht' => ?_⟩
  · show (if m.value.isEmpty then m.value
      else ((List.range m.vert2.length).filter
        (fun i => decide (i ∈ uniqueTriaVerts m))).map (fun i => m.value.getD i 0)) = _
    rw [if_neg hval]
  · rw [hmap] at ht'
    obtain ⟨t, ht, rfl⟩ := List.mem_map.mp ht'
    have htm : t ∈ m.tria3 := (List.mem_filter.mp ht).1
    obtain ⟨h1, h2, h3⟩ := hw t htm
    obtain ⟨u1, u2, u3⟩ := mem_uniqueTriaVerts m t htm
    rw [hlen]
    exact ⟨compactIdx_lt_kept _ h1 u1, compactIdx_lt_kept _ h2 u2,
      compactIdx_lt_kept _ h3 u3⟩

/-- C1, witness: the amended statement applied to `triMsh` with no
threshold. -/
theorem C1_witness :
    (∀ t ∈ triMsh.tria3, t.1.1 < triMsh.vert2.length ∧
      t.1.2.1 < triMsh.vert2.length ∧ t.1.2.2 < triMsh.vert2.length) ∧
    indexRingCollection triMsh = .ok triRegions ∧
    sieve triMsh none = .ok triSieved ∧
    (triSieved.tria3 = (triMsh.tria3.filter (fun t =>
        !(sieveMask triMsh triRegions none t.1.1 ||
          sieveMask triMsh triRegions none t.1.2.1 ||
          sieveMask triMsh triRegions none t.1.2.2))).map
        (fun t => ((compactIdx (uniqueTriaVerts triMsh) t.1.1,
          compactIdx (uniqueTriaVerts triMsh) t.1.2.1,
          compactIdx (uniqueTriaVerts triMsh) t.1.2.2), t.2)) ∧
    triSieved.vert2 = ((List.range triMsh.vert2.length).filter
        (fun i => decide (i ∈ uniqueTriaVerts triMsh))).map
        (fun i => triMsh.vert2.getD i ((0, 0), 0)) ∧
    (¬ triMsh.value.isEmpty → triSieved.value =
      ((List.range triMsh.vert2.length).filter
        (fun i => decide (i ∈ uniqueTriaVerts triMsh))).map
        (fun i => triMsh.value.getD i 0)) ∧
    (∀ t' ∈ triSieved.tria3, t'.1.1 < triSieved.vert2.length ∧
      t'.1.2.1 < triSieved.vert2.length ∧ t'.1.2.2 < triSieved.vert2.length)) :=
  ⟨by decide, by decide, by decide,
    C1_sieve_spec triMsh none triRegions triSieved (by decide) (by decide) (by decide)⟩

/-- C9, witness: the invariant statement applied to `triMsh`. -/
theorem C9_witness :
    triMsh.value ≠ [] ∧ triMsh.value.length = triMsh.vert2.length ∧
    (((cleanupIsolates triMsh).value.length = (cleanupIsolates triMsh).vert2.length) ∧
    (∀ area m', sieve triMsh area = .ok m' → m'.value.length = m'.vert2.length) ∧
    (∀ m', cleanupPinchedNodes triMsh = .ok m' → m'.value.length = m'.vert2.length) ∧
    (∀ fuel area m', finalizeMesh fuel triMsh area = .ok m' →
      m'.value.length = m'.vert2.length)) :=
  ⟨by decide, by decide, C9_value_length triMsh (by decide) (by decide)⟩

end Geomesh
